import Mathlib

/-!
# Verification of the Annif Yake backend core

Shallow embedding of `annif/backend/yake.py`: label normalization, index
construction and persistence, keyphrase matching, score transformation and
score combination.  Strings are modelled as `List Char`, Python floats as `ℚ`
(every arithmetic step in the claims is exact in binary floating point at the
inputs considered), and a Python `ZeroDivisionError` as `Option.none`.
-/

namespace Yake

/-! ## Score arithmetic (`_transform_score`, `_conflate_scores`) -/

/-- `_transform_score`: negative raw YAKE scores are clamped to `1.0`,
otherwise the score is mapped through `1.0 / (score + 1)`. -/
def transformScore (score : ℚ) : ℚ :=
  if score < 0 then 1 else 1 / (score + 1)

/-- The denominator of the conflation formula in `_conflate_scores`. -/
def scoreDenom (score1 score2 : ℚ) : ℚ :=
  score1 * score2 + (1 - score1) * (1 - score2)

/-- `_conflate_scores`: `score1 * score2 / (score1 * score2 + (1-score1) *
(1-score2))`.  The Python division raises `ZeroDivisionError` when the
denominator is zero; this is modelled by `none`. -/
def conflateScores (score1 score2 : ℚ) : Option ℚ :=
  if scoreDenom score1 score2 = 0 then none
  else some (score1 * score2 / scoreDenom score1 score2)

/-! ## Score combination over an insertion-ordered dict
(`_combine_suggestions`) -/

/-- Lookup in an association list, as Python `key in d` / `d[key]`. -/
def lookupAssoc {κ ν : Type} [DecidableEq κ] (acc : List (κ × ν)) (key : κ) :
    Option ν :=
  match acc with
  | [] => none
  | (u, s) :: rest => if u = key then some s else lookupAssoc rest key

/-- Python dict assignment to an existing key: replace the value in place,
keeping the key's insertion position. -/
def updateAssoc (acc : List (String × ℚ)) (uri : String) (s : ℚ) :
    List (String × ℚ) :=
  match acc with
  | [] => []
  | (u, old) :: rest =>
    if u = uri then (u, s) :: rest else (u, old) :: updateAssoc rest uri s

/-- The loop of `_combine_suggestions`, carrying the insertion-ordered dict
`combined_suggestions` as an association list.  `none` propagates a
`ZeroDivisionError` from `_conflate_scores`. -/
def combineLoop (suggestions : List (String × ℚ)) (acc : List (String × ℚ)) :
    Option (List (String × ℚ)) :=
  match suggestions with
  | [] => some acc
  | (uri, score) :: rest =>
    match lookupAssoc acc uri with
    | none => combineLoop rest (acc ++ [(uri, score)])
    | some oldScore =>
      match conflateScores score oldScore with
      | none => none
      | some s => combineLoop rest (updateAssoc acc uri s)

/-- `_combine_suggestions`: deduplicate URIs, conflating scores, and return
the dict as an insertion-ordered list of pairs. -/
def combineSuggestions (suggestions : List (String × ℚ)) :
    Option (List (String × ℚ)) :=
  combineLoop suggestions []

/-! ## Suggestion assembly (`_suggest`) -/

/-- The list comprehension in `_suggest`:
`[... for uri, score in suggestions[:limit] if score > 0.0]` — it truncates
to `limit` entries first and only then filters out non-positive scores. -/
def suggestAssemble (suggestions : List (String × ℚ)) (limit : Nat) :
    List (String × ℚ) :=
  (suggestions.take limit).filter (fun p => decide (0 < p.2))

/-! ## Python string primitives -/

/-- Python `str.isspace` on the characters stripped by `str.strip()` and
split on by `str.split()`. -/
def pyIsSpace (c : Char) : Bool :=
  c = ' ' || c = '\t' || c = '\n' || c = '\r' || c = '\x0b' || c = '\x0c'

/-- Python `str.strip()`: drop whitespace from both ends. -/
def pyStrip (cs : List Char) : List Char :=
  ((cs.dropWhile pyIsSpace).reverse.dropWhile pyIsSpace).reverse

/-- Python `str.split(sep)` for a one-character separator: split at every
occurrence, keeping empty pieces (`"".split(sep) == [""]`). -/
def splitSep (sep : Char) : List Char → List (List Char)
  | [] => [[]]
  | c :: cs =>
    if c = sep then [] :: splitSep sep cs
    else
      match splitSep sep cs with
      | [] => [[c]]
      | w :: ws => (c :: w) :: ws

/-- Negation of `pyIsSpace`, used as a `takeWhile` / `dropWhile` predicate. -/
def notSpace (c : Char) : Bool := !pyIsSpace c

/-- Helper for `pySplitWs`: scan the characters, accumulating the current
word in reverse. -/
def pySplitWsAux (cur : List Char) : List Char → List (List Char)
  | [] => if cur.isEmpty then [] else [cur.reverse]
  | c :: rest =>
    if pyIsSpace c then
      if cur.isEmpty then pySplitWsAux [] rest
      else cur.reverse :: pySplitWsAux [] rest
    else pySplitWsAux (c :: cur) rest

/-- Python `str.split()` with no argument: split on runs of whitespace,
discarding empty pieces. -/
def pySplitWs (cs : List Char) : List (List Char) :=
  pySplitWsAux [] cs

/-- Python `' '.join(...)`. -/
def spaceJoin : List (List Char) → List Char
  | [] => []
  | [u] => u
  | u :: v :: rest => u ++ ' ' :: spaceJoin (v :: rest)

/-- Characters other than a newline, the characters matched by `.` in a
Python regular expression. -/
def notNewline (c : Char) : Bool := c != '\n'

/-- The suffix of a list after its last `')'` (the list itself when it has
none). -/
def afterLastClose (cs : List Char) : List Char :=
  (cs.reverse.takeWhile (fun c => c != ')')).reverse

/-- One newline-free segment of `re.sub(r' \(.*\)', '', s)`: scanning left
to right, a match starts at a space followed by `'('` that has some `')'`
after it, and — `.*` being greedy — extends to the last `')'` of the
segment; past that `')'` the segment has no further `')'`, hence no further
match. -/
def parenSubLine : List Char → List Char
  | [] => []
  | [c] => [c]
  | c1 :: c2 :: rest =>
    if c1 = ' ' ∧ c2 = '(' ∧ ')' ∈ rest then afterLastClose rest
    else c1 :: parenSubLine (c2 :: rest)

/-- Python `'\n'.join(...)`. -/
def joinNl : List (List Char) → List Char
  | [] => []
  | [l] => l
  | l :: l2 :: rest => l ++ '\n' :: joinNl (l2 :: rest)

/-- Python `re.sub(r' \(.*\)', '', s)`.  Since `.` does not match a newline
and every character of the pattern is distinct from `'\n'`, every match lies
inside one newline-free segment, so the substitution acts independently on
each segment. -/
def parenSub (cs : List Char) : List Char :=
  joinNl ((splitSep '\n' cs).map parenSubLine)

/-! ## Normalization (`_lemmatize_phrase`, `_sort_phrase`,
`_normalize_label`) -/

/-- Python `str.lower()` on the analyzer's output (ASCII-faithful). -/
def lowerWord (w : List Char) : List Char := w.map Char.toLower

/-- `_lemmatize_phrase`: split on whitespace, normalize each word via the
project analyzer (`nw`) and lowercase it, rejoin with single spaces. -/
def lemmatizePhrase (nw : List Char → List Char) (phrase : List Char) :
    List Char :=
  spaceJoin ((pySplitWs phrase).map (fun w => lowerWord (nw w)))

/-- Lexicographic strict order on words by code point, the comparison
underlying Python `sorted` on strings. -/
def lexLt : List Char → List Char → Bool
  | [], [] => false
  | [], _ :: _ => true
  | _ :: _, [] => false
  | a :: as, b :: bs =>
    if a.val < b.val then true
    else if b.val < a.val then false
    else lexLt as bs

/-- Stable insertion into a sorted list of words. -/
def insertSorted (a : List Char) : List (List Char) → List (List Char)
  | [] => [a]
  | b :: bs => if lexLt b a then b :: insertSorted a bs else a :: b :: bs

/-- Python `sorted` on a list of words (stable, lexicographic). -/
def pySorted : List (List Char) → List (List Char)
  | [] => []
  | a :: rest => insertSorted a (pySorted rest)

/-- `_sort_phrase`: split on whitespace, sort the words, rejoin. -/
def sortPhrase (phrase : List Char) : List Char :=
  spaceJoin (pySorted (pySplitWs phrase))

/-- `_normalize_label`: optional parenthetical removal, then lemmatization,
then word sorting.  `nw` is the external analyzer's `normalize_word`. -/
def normalizeLabel (nw : List Char → List Char) (removeParens : Bool)
    (label : List Char) : List Char :=
  sortPhrase (lemmatizePhrase nw (if removeParens then parenSub label else label))

/-- The normalization performed on an extracted keyphrase inside
`_keyphrase2uris`: lemmatization then word sorting — with no parenthetical
removal step. -/
def keyphraseNormalize (nw : List Char → List Char) (keyphrase : List Char) :
    List Char :=
  sortPhrase (lemmatizePhrase nw keyphrase)

/-! ## Matching (`_keyphrase2uris`, `_keyphrases2suggestions`) -/

/-- `_keyphrase2uris`: normalize the keyphrase and look it up in the index,
defaulting to no matches (`self._index.get(keyphrase, [])`). -/
def keyphrase2uris (index : List (List Char × List String))
    (nw : List Char → List Char) (keyphrase : List Char) : List String :=
  match lookupAssoc index (keyphraseNormalize nw keyphrase) with
  | some uris => uris
  | none => []

/-- `_keyphrases2suggestions`: every URI matched by a keyphrase receives the
transformed score; duplicates are then conflated by `_combine_suggestions`. -/
def keyphrases2suggestions (index : List (List Char × List String))
    (nw : List Char → List Char) (keyphrases : List (List Char × ℚ)) :
    Option (List (String × ℚ)) :=
  combineSuggestions
    ((keyphrases.map (fun kp =>
      (keyphrase2uris index nw kp.1).map (fun uri => (uri, transformScore kp.2)))).flatten)

/-! ## Label kinds (`label_types`) -/

/-- The three SKOS label kinds recognized by the backend. -/
inductive LabelKind
  | pref
  | alt
  | hidden
deriving DecidableEq

/-- The `mapping` dict in the `label_types` property. -/
def labelKindOfToken (t : List Char) : Option LabelKind :=
  if t = "pref".toList then some LabelKind.pref
  else if t = "alt".toList then some LabelKind.alt
  else if t = "hidden".toList then some LabelKind.hidden
  else none

/-- The list comprehension `[mapping[lt.strip()] for lt in lt_entries]`:
a `KeyError` on the first unresolvable token aborts the whole list. -/
def resolveTokens : List (List Char) → Except (List Char) (List LabelKind)
  | [] => Except.ok []
  | t :: rest =>
    match labelKindOfToken (pyStrip t) with
    | none => Except.error (pyStrip t)
    | some k =>
      match resolveTokens rest with
      | Except.error e => Except.error e
      | Except.ok ks => Except.ok (k :: ks)

/-- The `label_types` property for a configured `label_types` parameter:
split on commas, strip each token, resolve it; an unknown token raises
`ConfigurationException` (modelled as `Except.error` carrying the token). -/
def labelTypes (cfg : List Char) : Except (List Char) (List LabelKind) :=
  resolveTokens (splitSep ',' cfg)

/-! ## Index construction (`_create_index`, `_get_concept_labels`) -/

/-- The vocabulary graph interface consumed by `_create_index`: the SKOS
concepts, their deprecation flag, and their labels per kind as
(language tag, literal text) pairs. -/
structure VocabGraph where
  concepts : List String
  deprecated : String → Bool
  labelsOf : String → LabelKind → List (List Char × List Char)

/-- `_get_concept_labels`: for each configured label kind, the labels of the
concept whose language tag equals the configured language. -/
def getConceptLabels (g : VocabGraph) (concept : String)
    (lts : List LabelKind) (lang : List Char) : List (List Char) :=
  (lts.map (fun lt =>
    ((g.labelsOf concept lt).filter (fun p => p.1 = lang)).map Prod.snd)).flatten

/-- `index[label].add(uri)` on a `defaultdict(set)`, the set modelled as a
duplicate-free insertion-ordered list. -/
def addToIndex (idx : List (List Char × List String)) (key : List Char)
    (uri : String) : List (List Char × List String) :=
  match idx with
  | [] => [(key, [uri])]
  | (k, uris) :: rest =>
    if k = key then (k, if uri ∈ uris then uris else uris ++ [uri]) :: rest
    else (k, uris) :: addToIndex rest key uri

/-- `_create_index`: walk the concepts, skip deprecated ones, normalize every
collected label and add the concept URI under that key; finally remove a
possible empty-string key (`index.pop('', None)`). -/
def createIndex (g : VocabGraph) (lts : List LabelKind) (lang : List Char)
    (nw : List Char → List Char) (removeParens : Bool) :
    List (List Char × List String) :=
  (g.concepts.foldl
    (fun idx concept =>
      if g.deprecated concept then idx
      else (getConceptLabels g concept lts lang).foldl
        (fun idx label =>
          addToIndex idx (normalizeLabel nw removeParens label) concept) idx)
    []).filter (fun e => decide (e.1 ≠ []))

/-! ## Index persistence (`_save_index`, `_load_index`) -/

/-- The line written for one index entry:
`line = label + '\t' + ' '.join(uris)`. -/
def entryLine (e : List Char × List (List Char)) : List Char :=
  e.1 ++ '\t' :: spaceJoin e.2

/-- `_save_index`: one line per entry, `key<TAB>space-joined-uris`, each line
terminated by `print`'s newline. -/
def saveIndex (idx : List (List Char × List (List Char))) : List Char :=
  (idx.map (fun e => entryLine e ++ ['\n'])).flatten

/-- Helper for `fileLines`: accumulate the current line (reversed) while
scanning for newlines. -/
def lineSplitAux : List Char → List Char → List (List Char)
  | cur, [] => [cur.reverse]
  | cur, c :: rest =>
    if c = '\n' then
      cur.reverse :: (if rest.isEmpty then [] else lineSplitAux [] rest)
    else lineSplitAux (c :: cur) rest

/-- Python file iteration (`for line in indexfile`), with the trailing
newline of each line already removed (it is whitespace, so the subsequent
`str.strip()` makes this equivalent). -/
def fileLines (cs : List Char) : List (List Char) :=
  if cs.isEmpty then [] else lineSplitAux [] cs

/-- One iteration of the `_load_index` loop body:
`label, uris = line.strip().split('\t')` (a `ValueError` when the split does
not yield exactly two fields is modelled as `none`), then `uris.split()`. -/
def parseLine (line : List Char) : Option (List Char × List (List Char)) :=
  match splitSep '\t' (pyStrip line) with
  | [label, uris] => some (label, pySplitWs uris)
  | _ => none

/-- Python dict assignment `d[k] = v`: overwrite in place or append. -/
def setAssoc (acc : List (List Char × List (List Char))) (k : List Char)
    (v : List (List Char)) : List (List Char × List (List Char)) :=
  match acc with
  | [] => [(k, v)]
  | (k', v') :: rest =>
    if k' = k then (k', v) :: rest else (k', v') :: setAssoc rest k v

/-- The `_load_index` loop over the file's lines. -/
def loadLoop : List (List Char) → List (List Char × List (List Char)) →
    Option (List (List Char × List (List Char)))
  | [], acc => some acc
  | l :: ls, acc =>
    match parseLine l with
    | none => none
    | some (k, v) => loadLoop ls (setAssoc acc k v)

/-- `_load_index`: parse every line of the file into a dict. -/
def loadIndex (content : List Char) :
    Option (List (List Char × List (List Char))) :=
  loadLoop (fileLines content) []

/-! ## Side conditions used in theorem statements -/

/-- Whether the list contains a space immediately followed by `'('`
(a position where the pattern `' \('` can start to match). -/
def hasSpaceParen : List Char → Bool
  | [] => false
  | [_] => false
  | c1 :: c2 :: rest => (c1 = ' ' && c2 = '(') || hasSpaceParen (c2 :: rest)

/-- A serializable index key: non-empty, free of tabs and newlines, and not
starting or ending with whitespace (so that the `str.strip()` performed by
`_load_index` leaves it intact). -/
def goodKey (k : List Char) : Bool :=
  !k.isEmpty && k.all (fun c => c != '\t' && c != '\n') &&
    k.head?.all (fun c => !pyIsSpace c) && k.getLast?.all (fun c => !pyIsSpace c)

/-- A serializable URI set: non-empty, every URI non-empty and free of
whitespace (so that `' '.join` followed by `str.split()` is lossless). -/
def goodUris (us : List (List Char)) : Bool :=
  !us.isEmpty && us.all (fun u => !u.isEmpty && u.all (fun c => !pyIsSpace c))

/-- A serializable index entry. -/
def goodEntry (e : List Char × List (List Char)) : Bool :=
  goodKey e.1 && goodUris e.2

end Yake

namespace Yake

/-! ### Basic facts about the score pipeline -/

theorem transformScore_mem_Ioc (s : ℚ) :
    0 < transformScore s ∧ transformScore s ≤ 1 := by
  unfold transformScore
  split
  · exact ⟨one_pos, le_refl 1⟩
  · rename_i h
    push_neg at h
    have hpos : (0 : ℚ) < s + 1 := by linarith
    constructor
    · positivity
    · rw [div_le_one hpos]
      linarith

theorem scoreDenom_pos {s1 s2 : ℚ} (h1 : 0 < s1) (h1' : s1 ≤ 1)
    (h2 : 0 < s2) (h2' : s2 ≤ 1) : 0 < scoreDenom s1 s2 := by
  unfold scoreDenom
  nlinarith

theorem conflateScores_some {s1 s2 : ℚ} (h1 : 0 < s1) (h1' : s1 ≤ 1)
    (h2 : 0 < s2) (h2' : s2 ≤ 1) :
    conflateScores s1 s2 = some (s1 * s2 / scoreDenom s1 s2) := by
  unfold conflateScores
  rw [if_neg (ne_of_gt (scoreDenom_pos h1 h1' h2 h2'))]

theorem conflateScores_mem_Ioc {s1 s2 s : ℚ} (h1 : 0 < s1) (h1' : s1 ≤ 1)
    (h2 : 0 < s2) (h2' : s2 ≤ 1)
    (h : conflateScores s1 s2 = some s) : 0 < s ∧ s ≤ 1 := by
  have hd := scoreDenom_pos h1 h1' h2 h2'
  rw [conflateScores_some h1 h1' h2 h2'] at h
  obtain rfl : s1 * s2 / scoreDenom s1 s2 = s := Option.some.inj h
  constructor
  · apply div_pos (by nlinarith) hd
  · rw [div_le_one hd]
    unfold scoreDenom
    nlinarith

end Yake

namespace Yake

/-! ### C1 — the conflation formula at the degenerate extremes -/

/-- **C1**: the claim says `combine(1.0, 0.0)` returns `1.0` instead of
dividing by zero; in the code the denominator `1*0 + (1-1)*(1-0)` is `0` and
the unguarded division raises `ZeroDivisionError` (modelled as `none`). -/
theorem conflate_scores_zero_denominator : conflateScores 1 0 = none := by
  norm_num [conflateScores, scoreDenom]

/-! ### C6 — the score transform -/

/-- **C6**: `transform` is `1.0` on negative scores and at `0`, equals
`1/(s+1)` on non-negative scores, is strictly decreasing there, and always
lands in `(0, 1]`. -/
theorem transform_score_spec (s t : ℚ) :
    (s < 0 → transformScore s = 1) ∧
    transformScore 0 = 1 ∧
    (0 ≤ s → transformScore s = 1 / (s + 1)) ∧
    (0 ≤ s → s < t → transformScore t < transformScore s) ∧
    (0 < transformScore s ∧ transformScore s ≤ 1) := by
  refine ⟨?_, ?_, ?_, ?_, transformScore_mem_Ioc s⟩
  · intro h
    unfold transformScore
    rw [if_pos h]
  · norm_num [transformScore]
  · intro h
    unfold transformScore
    rw [if_neg (not_lt.mpr h)]
  · intro hs hst
    have ht : ¬ t < 0 := not_lt.mpr (le_trans hs (le_of_lt hst))
    unfold transformScore
    rw [if_neg (not_lt.mpr hs), if_neg ht]
    have h1 : (0 : ℚ) < s + 1 := by linarith
    have h2 : (0 : ℚ) < t + 1 := by linarith
    rw [div_lt_div_iff₀ h2 h1]
    linarith

/-- Concrete instance of `transform_score_spec`. -/
theorem transform_score_spec_witness :
    transformScore (-1) = 1 ∧ transformScore 2 = 1 / 3 ∧
    transformScore 1 < transformScore 0 := by
  refine ⟨(transform_score_spec (-1) 0).1 (by norm_num), ?_,
    (transform_score_spec 0 1).2.2.2.1 le_rfl one_pos⟩
  have h := (transform_score_spec 2 0).2.2.1 (by norm_num)
  rw [h]
  norm_num

/-! ### C4 — the suggestion assembler truncates before filtering -/

/-- **C4** counterexample: on `[("u1", 0.0), ("u2", 0.5)]` with limit 1 the
code returns the empty list, while filtering non-positive scores before
truncating (as the claim states) would return `[("u2", 0.5)]`. -/
theorem suggest_assemble_cex :
    suggestAssemble [("u1", 0), ("u2", 1/2)] 1 ≠
      (([("u1", (0 : ℚ)), ("u2", 1/2)].filter (fun p => decide (0 < p.2))).take 1) := by
  norm_num [suggestAssemble]

/-- **C4** amended: the assembler truncates to `limit` entries first and
then drops non-positive scores; hence the output has at most `limit`
entries, all with positive scores, is an order-preserving sublist of the
first `limit` combined pairs, and agrees with plain truncation whenever all
scores are positive — but positive pairs beyond position `limit` never fill
the quota. -/
theorem suggest_assemble_spec (sugg : List (String × ℚ)) (limit : Nat) :
    (suggestAssemble sugg limit).length ≤ limit ∧
    (∀ p ∈ suggestAssemble sugg limit, 0 < p.2) ∧
    (suggestAssemble sugg limit).Sublist (sugg.take limit) ∧
    ((∀ p ∈ sugg, 0 < p.2) → suggestAssemble sugg limit = sugg.take limit) := by
  refine ⟨?_, ?_, ?_, ?_⟩
  · exact le_trans (List.length_filter_le _ _) (List.length_take_le limit sugg)
  · intro p hp
    unfold suggestAssemble at hp
    have := (List.mem_filter.mp hp).2
    exact of_decide_eq_true this
  · exact List.filter_sublist _
  · intro h
    unfold suggestAssemble
    apply List.filter_eq_self.mpr
    intro p hp
    exact decide_eq_true (h p (List.mem_of_mem_take hp))

/-- Concrete instance of `suggest_assemble_spec`. -/
theorem suggest_assemble_spec_witness :
    suggestAssemble [("u1", (1 : ℚ))] 5 = [("u1", (1 : ℚ))] := by
  have h := (suggest_assemble_spec [("u1", (1 : ℚ))] 5).2.2.2 (by norm_num)
  simpa using h

end Yake

namespace Yake

/-! ### C2 — build-time vs match-time normalization -/

/-- **C2** counterexample: with `remove_parentheses` enabled, the label
`"foo (bar)"` is indexed under the key built after stripping `" (bar)"`,
while the same string arriving as an extracted keyphrase is normalized by
`_keyphrase2uris` without the stripping step, yielding a different key. -/
theorem normalize_mismatch_cex :
    normalizeLabel (fun w => w) true ("foo (bar)".toList) ≠
      keyphraseNormalize (fun w => w) ("foo (bar)".toList) := by
  decide

/-- **C2** amended: match-time normalization (`_keyphrase2uris`) omits the
parenthesis-stripping step of `_normalize_label`; the two normalizations
agree exactly when `remove_parentheses` is disabled or the phrase is left
unchanged by the parenthetical substitution. -/
theorem normalize_agreement (nw : List Char → List Char) (rp : Bool)
    (phrase : List Char) (h : rp = false ∨ parenSub phrase = phrase) :
    normalizeLabel nw rp phrase = keyphraseNormalize nw phrase := by
  unfold normalizeLabel keyphraseNormalize
  rcases h with h | h
  · rw [h]
    simp
  · cases rp
    · simp
    · simp [h]

/-- Concrete instance of `normalize_agreement`. -/
theorem normalize_agreement_witness :
    normalizeLabel (fun w => w) true ("rock art".toList) =
      keyphraseNormalize (fun w => w) ("rock art".toList) :=
  normalize_agreement (fun w => w) true ("rock art".toList) (Or.inr (by decide))

/-! ### C7 — algebra of the conflation rule -/

/-- The conflation formula is symmetric in its two arguments. -/
theorem conflate_comm (a b : ℚ) : conflateScores a b = conflateScores b a := by
  have h1 : a * b = b * a := mul_comm a b
  have h2 : (1 - a) * (1 - b) = (1 - b) * (1 - a) := mul_comm _ _
  simp only [conflateScores, scoreDenom, h1, h2]

/-- On the open interval the conflation result is strictly inside `(0,1)`. -/
theorem conflateScores_open {a b : ℚ} (ha : 0 < a) (ha' : a < 1)
    (hb : 0 < b) (hb' : b < 1) :
    conflateScores a b = some (a * b / scoreDenom a b) ∧
      0 < a * b / scoreDenom a b ∧ a * b / scoreDenom a b < 1 := by
  have hd : 0 < scoreDenom a b := scoreDenom_pos ha ha'.le hb hb'.le
  refine ⟨conflateScores_some ha ha'.le hb hb'.le, div_pos (by nlinarith) hd, ?_⟩
  rw [div_lt_one hd]
  unfold scoreDenom
  nlinarith

/-- Folding the conflation from the left over `a, b, c` in `(0,1)` yields
the symmetric closed form `abc / (abc + (1-a)(1-b)(1-c))`. -/
theorem conflate_bind_left {a b c : ℚ} (ha : 0 < a) (ha' : a < 1)
    (hb : 0 < b) (hb' : b < 1) (hc : 0 < c) (hc' : c < 1) :
    (conflateScores a b).bind (fun x => conflateScores x c) =
      some (a * b * c / (a * b * c + (1 - a) * (1 - b) * (1 - c))) := by
  obtain ⟨hab, hx, hx'⟩ := conflateScores_open ha ha' hb hb'
  rw [hab, Option.some_bind, (conflateScores_open hx hx' hc hc').1]
  congr 1
  have hD : scoreDenom a b ≠ 0 := ne_of_gt (scoreDenom_pos ha ha'.le hb hb'.le)
  have h2 : (0:ℚ) ≤ (1 - a) * (1 - b) * (1 - c) :=
    mul_nonneg (mul_nonneg (by linarith) (by linarith)) (by linarith)
  have hD' : a * b * c + (1 - a) * (1 - b) * (1 - c) ≠ 0 := by
    have h1 : (0:ℚ) < a * b * c := by positivity
    linarith
  have hE : scoreDenom (a * b / scoreDenom a b) c ≠ 0 :=
    ne_of_gt (scoreDenom_pos hx hx'.le hc hc'.le)
  have hxD : a * b / scoreDenom a b * scoreDenom a b = a * b :=
    div_mul_cancel₀ _ hD
  rw [div_eq_div_iff hE hD']
  have hsd : scoreDenom (a * b / scoreDenom a b) c =
      a * b / scoreDenom a b * c +
        (1 - a * b / scoreDenom a b) * (1 - c) := rfl
  rw [hsd]
  apply mul_right_cancel₀ hD
  have hDdef : scoreDenom a b = a * b + (1 - a) * (1 - b) := rfl
  linear_combination (c * (a * b * c + (1 - a) * (1 - b) * (1 - c)) -
    a * b * c * c + a * b * c * (1 - c)) * hxD -
    (1 - c) * a * b * c * hDdef

/-- Folding the conflation from the right yields the same closed form. -/
theorem conflate_bind_right {a b c : ℚ} (ha : 0 < a) (ha' : a < 1)
    (hb : 0 < b) (hb' : b < 1) (hc : 0 < c) (hc' : c < 1) :
    (conflateScores b c).bind (fun y => conflateScores a y) =
      some (a * b * c / (a * b * c + (1 - a) * (1 - b) * (1 - c))) := by
  obtain ⟨hbc, hy, hy'⟩ := conflateScores_open hb hb' hc hc'
  rw [hbc, Option.some_bind, (conflateScores_open ha ha' hy hy').1]
  congr 1
  have hD : scoreDenom b c ≠ 0 := ne_of_gt (scoreDenom_pos hb hb'.le hc hc'.le)
  have h2 : (0:ℚ) ≤ (1 - a) * (1 - b) * (1 - c) :=
    mul_nonneg (mul_nonneg (by linarith) (by linarith)) (by linarith)
  have hD' : a * b * c + (1 - a) * (1 - b) * (1 - c) ≠ 0 := by
    have h1 : (0:ℚ) < a * b * c := by positivity
    linarith
  have hE : scoreDenom a (b * c / scoreDenom b c) ≠ 0 :=
    ne_of_gt (scoreDenom_pos ha ha'.le hy hy'.le)
  have hyD : b * c / scoreDenom b c * scoreDenom b c = b * c :=
    div_mul_cancel₀ _ hD
  rw [div_eq_div_iff hE hD']
  have hsd : scoreDenom a (b * c / scoreDenom b c) =
      a * (b * c / scoreDenom b c) +
        (1 - a) * (1 - b * c / scoreDenom b c) := rfl
  rw [hsd]
  apply mul_right_cancel₀ hD
  have hDdef : scoreDenom b c = b * c + (1 - b) * (1 - c) := rfl
  linear_combination (a * (a * b * c + (1 - a) * (1 - b) * (1 - c)) -
    a * b * c * a + a * b * c * (1 - a)) * hyD -
    (1 - a) * a * b * c * hDdef

/-- **C7** counterexample: the code's `_conflate_scores(0.5, 0.5)` is
`0.25 / (0.25 + 0.25) = 0.5`, not the `0.8` the claim states (that value
belongs to the formula `(s1+s2)/(1+s1*s2)` targeted by the stale test
`test_combine_scores`). -/
theorem conflate_scores_value_cex :
    conflateScores (1/2) (1/2) = some (1/2) ∧ (1/2 : ℚ) ≠ 4/5 := by
  norm_num [conflateScores, scoreDenom]

/-- **C7** amended: the conflation rule is commutative (everywhere) and
associative over `(0,1)`, so the combined score of a concept does not
depend on the folding order; the correct concrete values are
`combine(0.5,0.5) = 0.5`, `combine(0.75,0.75) = 0.9`,
`combine(0.4,0.3) = 2/9` and `combine(0.4,0.5) = 0.4`. -/
theorem conflate_scores_algebra (a b c : ℚ)
    (ha : 0 < a) (ha' : a < 1) (hb : 0 < b) (hb' : b < 1)
    (hc : 0 < c) (hc' : c < 1) :
    conflateScores a b = conflateScores b a ∧
    (conflateScores a b).bind (fun x => conflateScores x c) =
      (conflateScores b c).bind (fun y => conflateScores a y) ∧
    conflateScores (1/2) (1/2) = some (1/2) ∧
    conflateScores (3/4) (3/4) = some (9/10) ∧
    conflateScores (2/5) (3/10) = some (2/9) ∧
    conflateScores (2/5) (1/2) = some (2/5) := by
  refine ⟨conflate_comm a b, ?_, ?_, ?_, ?_, ?_⟩
  · rw [conflate_bind_left ha ha' hb hb' hc hc',
      conflate_bind_right ha ha' hb hb' hc hc']
  all_goals norm_num [conflateScores, scoreDenom]

/-- Concrete instance of `conflate_scores_algebra`: associativity of the
fold at `(1/2, 1/3, 1/4)`. -/
theorem conflate_scores_algebra_witness :
    (conflateScores (1/2) (1/3)).bind (fun x => conflateScores x (1/4)) =
      (conflateScores (1/3) (1/4)).bind (fun y => conflateScores (1/2) y) :=
  (conflate_scores_algebra (1/2) (1/3) (1/4) (by norm_num) (by norm_num)
    (by norm_num) (by norm_num) (by norm_num) (by norm_num)).2.1

end Yake

namespace Yake

/-! ### C9 — label-kind resolution -/

theorem resolveTokens_error (ts : List (List Char))
    (h : ∃ t ∈ ts, labelKindOfToken (pyStrip t) = none) :
    ∃ e, resolveTokens ts = Except.error e := by
  induction ts with
  | nil => simp at h
  | cons t rest ih =>
    rcases h with ⟨u, hu, hnone⟩
    rcases List.mem_cons.mp hu with rfl | humem
    · exact ⟨pyStrip u, by simp [resolveTokens, hnone]⟩
    · unfold resolveTokens
      cases hk : labelKindOfToken (pyStrip t) with
      | none => exact ⟨pyStrip t, rfl⟩
      | some k =>
        obtain ⟨e, he⟩ := ih ⟨u, humem, hnone⟩
        exact ⟨e, by rw [he]⟩

theorem resolveTokens_ok (ts : List (List Char))
    (h : ∀ t ∈ ts, (labelKindOfToken (pyStrip t)).isSome) :
    resolveTokens ts =
      Except.ok (ts.filterMap (fun t => labelKindOfToken (pyStrip t))) := by
  induction ts with
  | nil => rfl
  | cons t rest ih =>
    obtain ⟨k, hk⟩ := Option.isSome_iff_exists.mp (h t (List.mem_cons_self t rest))
    have hrest := ih (fun u hu => h u (List.mem_cons_of_mem t hu))
    unfold resolveTokens
    rw [hk, hrest]
    simp [List.filterMap_cons, hk]

/-- **C9**: resolving the configured `label_types` fails with a
`ConfigurationException` exactly when some comma-separated token does not
strip to a known label kind; when every token resolves, the list of resolved
kinds is returned (in configuration order) and no error is raised. -/
theorem label_types_spec (cfg : List Char) :
    ((∃ t ∈ splitSep ',' cfg, labelKindOfToken (pyStrip t) = none) →
      ∃ e, labelTypes cfg = Except.error e) ∧
    ((∀ t ∈ splitSep ',' cfg, (labelKindOfToken (pyStrip t)).isSome) →
      labelTypes cfg =
        Except.ok ((splitSep ',' cfg).filterMap
          (fun t => labelKindOfToken (pyStrip t)))) :=
  ⟨resolveTokens_error _, resolveTokens_ok _⟩

/-- Concrete instances of `label_types_spec`: `"pref, alt"` resolves, and
`"pref, bogus"` errors out. -/
theorem label_types_spec_witness :
    labelTypes ("pref, alt".toList) = Except.ok [LabelKind.pref, LabelKind.alt] ∧
    (∃ e, labelTypes ("pref, bogus".toList) = Except.error e) := by
  constructor
  · have h := (label_types_spec ("pref, alt".toList)).2 (by decide)
    rw [h]
    rfl
  · exact (label_types_spec ("pref, bogus".toList)).1 ⟨" bogus".toList, by decide⟩

end Yake

namespace Yake

/-! ### C8 — index construction invariants -/

theorem foldl_preserve {α β : Type} (P : α → Prop) (f : α → β → α)
    (l : List β) (h : ∀ acc x, P acc → P (f acc x)) :
    ∀ acc, P acc → P (l.foldl f acc) := by
  induction l with
  | nil => intro acc hacc; exact hacc
  | cons x rest ih =>
    intro acc hacc
    exact ih (f acc x) (h acc x hacc)

theorem addToIndex_uris {p : String → Prop} {idx : List (List Char × List String)}
    {key : List Char} {uri : String}
    (hidx : ∀ e ∈ idx, ∀ u ∈ e.2, p u) (huri : p uri) :
    ∀ e ∈ addToIndex idx key uri, ∀ u ∈ e.2, p u := by
  induction idx with
  | nil =>
    intro e he u hu
    simp only [addToIndex, List.mem_singleton] at he
    subst he
    simp only [List.mem_singleton] at hu
    subst hu
    exact huri
  | cons hd rest ih =>
    obtain ⟨k, us⟩ := hd
    intro e he u hu
    unfold addToIndex at he
    by_cases hk : k = key
    · rw [if_pos hk] at he
      rcases List.mem_cons.mp he with rfl | he'
      · simp only at hu
        split at hu
        · exact hidx (k, us) (List.mem_cons_self _ _) u hu
        · rcases List.mem_append.mp hu with h' | h'
          · exact hidx (k, us) (List.mem_cons_self _ _) u h'
          · rw [List.mem_singleton.mp h']
            exact huri
      · exact hidx e (List.mem_cons_of_mem _ he') u hu
    · rw [if_neg hk] at he
      rcases List.mem_cons.mp he with rfl | he'
      · exact hidx (k, us) (List.mem_cons_self _ _) u hu
      · exact ih (fun e' he'' => hidx e' (List.mem_cons_of_mem _ he'')) e he' u hu

/-- **C8**: for every vocabulary graph, language and label-kind
configuration, the built index has no empty-string key and no entry whose
URI set contains a deprecated concept. -/
theorem create_index_spec (g : VocabGraph) (lts : List LabelKind)
    (lang : List Char) (nw : List Char → List Char) (rp : Bool) :
    ∀ e ∈ createIndex g lts lang nw rp,
      e.1 ≠ [] ∧ ∀ u ∈ e.2, g.deprecated u = false := by
  intro e he
  unfold createIndex at he
  have hmem := List.mem_filter.mp he
  refine ⟨of_decide_eq_true hmem.2, ?_⟩
  have hP := foldl_preserve
    (fun idx => ∀ e' ∈ idx, ∀ u ∈ e'.2, g.deprecated u = false)
    (fun idx concept =>
      if g.deprecated concept then idx
      else (getConceptLabels g concept lts lang).foldl
        (fun idx label =>
          addToIndex idx (normalizeLabel nw rp label) concept) idx)
    g.concepts
    (by
      intro acc concept hacc
      by_cases hdep : g.deprecated concept
      · simp only [if_pos hdep]
        exact hacc
      · simp only [if_neg hdep]
        exact foldl_preserve
          (fun idx => ∀ e' ∈ idx, ∀ u ∈ e'.2, g.deprecated u = false)
          (fun idx label => addToIndex idx (normalizeLabel nw rp label) concept)
          (getConceptLabels g concept lts lang)
          (fun acc' label hacc' =>
            addToIndex_uris hacc' (Bool.not_eq_true _ ▸ hdep))
          acc hacc)
    []
    (by intro e' he'; simp at he')
  exact hP e hmem.1

/-- Concrete instance of `create_index_spec` on a one-concept graph. -/
theorem create_index_spec_witness :
    ("cat".toList : List Char) ≠ [] ∧
    ∀ u ∈ ["u1"], (VocabGraph.mk ["u1"] (fun _ => false)
      (fun _ _ => [("fi".toList, "Cat".toList)])).deprecated u = false :=
  create_index_spec
    (VocabGraph.mk ["u1"] (fun _ => false)
      (fun _ _ => [("fi".toList, "Cat".toList)]))
    [LabelKind.pref] ("fi".toList) (fun w => w) false
    ("cat".toList, ["u1"]) (by decide)

end Yake

namespace Yake

/-! ### C10 — the matching pipeline never divides by zero -/

theorem lookupAssoc_mem {κ ν : Type} [DecidableEq κ] :
    ∀ {acc : List (κ × ν)} {k : κ} {v : ν},
      lookupAssoc acc k = some v → (k, v) ∈ acc := by
  intro acc
  induction acc with
  | nil => intro k v h; simp [lookupAssoc] at h
  | cons hd rest ih =>
    obtain ⟨u, s⟩ := hd
    intro k v h
    unfold lookupAssoc at h
    by_cases hu : u = k
    · rw [if_pos hu] at h
      subst hu
      rw [Option.some_inj.mp h]
      exact List.mem_cons_self _ _
    · rw [if_neg hu] at h
      exact List.mem_cons_of_mem _ (ih h)

theorem updateAssoc_mem {acc : List (String × ℚ)} {uri : String} {s : ℚ}
    {p : String × ℚ} (h : p ∈ updateAssoc acc uri s) :
    p.2 = s ∨ p ∈ acc := by
  induction acc with
  | nil => simp [updateAssoc] at h
  | cons hd rest ih =>
    obtain ⟨u, old⟩ := hd
    unfold updateAssoc at h
    by_cases hu : u = uri
    · rw [if_pos hu] at h
      rcases List.mem_cons.mp h with rfl | h'
      · exact Or.inl rfl
      · exact Or.inr (List.mem_cons_of_mem _ h')
    · rw [if_neg hu] at h
      rcases List.mem_cons.mp h with rfl | h'
      · exact Or.inr (List.mem_cons_self _ _)
      · rcases ih h' with h'' | h''
        · exact Or.inl h''
        · exact Or.inr (List.mem_cons_of_mem _ h'')

theorem combineLoop_some :
    ∀ (sugg acc : List (String × ℚ)),
      (∀ p ∈ sugg, 0 < p.2 ∧ p.2 ≤ 1) → (∀ p ∈ acc, 0 < p.2 ∧ p.2 ≤ 1) →
      ∃ out, combineLoop sugg acc = some out ∧ ∀ p ∈ out, 0 < p.2 ∧ p.2 ≤ 1 := by
  intro sugg
  induction sugg with
  | nil =>
    intro acc _ hacc
    exact ⟨acc, rfl, hacc⟩
  | cons hd rest ih =>
    obtain ⟨uri, score⟩ := hd
    intro acc hsugg hacc
    have hscore : 0 < score ∧ score ≤ 1 :=
      hsugg (uri, score) (List.mem_cons_self _ _)
    have hrest : ∀ p ∈ rest, 0 < p.2 ∧ p.2 ≤ 1 :=
      fun p hp => hsugg p (List.mem_cons_of_mem _ hp)
    cases hl : lookupAssoc acc uri with
    | none =>
      simp only [combineLoop, hl]
      apply ih (acc ++ [(uri, score)]) hrest
      intro p hp
      rcases List.mem_append.mp hp with h' | h'
      · exact hacc p h'
      · rw [List.mem_singleton.mp h']
        exact hscore
    | some old =>
      have hold : 0 < old ∧ old ≤ 1 := hacc (uri, old) (lookupAssoc_mem hl)
      have hconf := conflateScores_some hscore.1 hscore.2 hold.1 hold.2
      have hs := conflateScores_mem_Ioc hscore.1 hscore.2 hold.1 hold.2 hconf
      simp only [combineLoop, hl, hconf]
      apply ih (updateAssoc acc uri (score * old / scoreDenom score old)) hrest
      intro p hp
      rcases updateAssoc_mem hp with h' | h'
      · rw [h']
        exact hs
      · exact hacc p h'

/-- **C10**: every score fed into `_combine_suggestions` by
`_keyphrases2suggestions` is an output of `_transform_score`, hence lies in
`(0,1]`; on such scores every conflation denominator is positive, so the
matching pipeline never hits the unguarded division by zero and all combined
scores stay in `(0,1]`. -/
theorem keyphrases2suggestions_safe (index : List (List Char × List String))
    (nw : List Char → List Char) (kps : List (List Char × ℚ)) :
    ∃ out, keyphrases2suggestions index nw kps = some out ∧
      ∀ p ∈ out, 0 < p.2 ∧ p.2 ≤ 1 := by
  unfold keyphrases2suggestions combineSuggestions
  apply combineLoop_some
  · intro p hp
    rw [List.mem_flatten] at hp
    obtain ⟨l, hl, hpl⟩ := hp
    rw [List.mem_map] at hl
    obtain ⟨kp, _, rfl⟩ := hl
    rw [List.mem_map] at hpl
    obtain ⟨uri, _, rfl⟩ := hpl
    exact transformScore_mem_Ioc kp.2
  · intro p hp
    simp at hp

/-- Concrete instance of `keyphrases2suggestions_safe`: a one-entry index
matched by one keyphrase. -/
theorem keyphrases2suggestions_safe_witness :
    ∃ out, keyphrases2suggestions [("cat".toList, ["u1"])] (fun w => w)
      [("cat".toList, 1)] = some out ∧ ∀ p ∈ out, 0 < p.2 ∧ p.2 ≤ 1 :=
  keyphrases2suggestions_safe [("cat".toList, ["u1"])] (fun w => w)
    [("cat".toList, 1)]

end Yake

namespace Yake

/-! ### C3 — the parenthetical substitution is greedy -/

theorem splitSep_no_sep {sep : Char} :
    ∀ {cs : List Char}, sep ∉ cs → splitSep sep cs = [cs] := by
  intro cs
  induction cs with
  | nil => intro _; rfl
  | cons c rest ih =>
    intro h
    have hc : ¬ c = sep := fun hcc => h (hcc ▸ List.mem_cons_self _ _)
    have hrest := ih (fun hm => h (List.mem_cons_of_mem _ hm))
    unfold splitSep
    rw [if_neg hc, hrest]

theorem takeWhile_append_stop {p : Char → Bool} {a : List Char} {x : Char}
    {b : List Char} (ha : ∀ c ∈ a, p c = true) (hx : p x = false) :
    (a ++ x :: b).takeWhile p = a := by
  induction a with
  | nil => simp [List.takeWhile_cons, hx]
  | cons c rest ih =>
    have hc := ha c (List.mem_cons_self _ _)
    have hrest := ih (fun c' hc' => ha c' (List.mem_cons_of_mem _ hc'))
    simp [List.takeWhile_cons, hc, hrest]

theorem afterLastClose_append {mid suf : List Char} (hsuf : ')' ∉ suf) :
    afterLastClose (mid ++ ')' :: suf) = suf := by
  unfold afterLastClose
  have hrev : (mid ++ ')' :: suf).reverse = suf.reverse ++ ')' :: mid.reverse := by
    simp
  rw [hrev, takeWhile_append_stop (p := fun c => c != ')') ?_ (by simp),
    List.reverse_reverse]
  intro c hc
  have : c ≠ ')' := fun hcc => hsuf (hcc ▸ (List.mem_reverse.mp hc))
  simpa using this

theorem parenSubLine_skip (pre : List Char) (rest : List Char)
    (hpre : hasSpaceParen pre = false) :
    parenSubLine (pre ++ ' ' :: '(' :: rest) =
      pre ++ parenSubLine (' ' :: '(' :: rest) := by
  induction pre with
  | nil => rfl
  | cons p pre ih =>
    cases pre with
    | nil =>
      show parenSubLine (p :: ' ' :: '(' :: rest) = _
      unfold parenSubLine
      rw [if_neg (by simp)]
      rfl
    | cons q pre' =>
      have hpq : ¬ (p = ' ' ∧ q = '(' ∧ ')' ∈ (pre' ++ ' ' :: '(' :: rest)) := by
        intro ⟨h1, h2, _⟩
        unfold hasSpaceParen at hpre
        rw [h1, h2] at hpre
        simp at hpre
      have hpre' : hasSpaceParen (q :: pre') = false := by
        unfold hasSpaceParen at hpre
        cases pre' with
        | nil => rfl
        | cons r pre'' =>
          exact (Bool.or_eq_false_iff.mp hpre).2
      show parenSubLine (p :: q :: (pre' ++ ' ' :: '(' :: rest)) = _
      unfold parenSubLine
      rw [if_neg hpq]
      rw [show q :: (pre' ++ ' ' :: '(' :: rest) =
        (q :: pre') ++ ' ' :: '(' :: rest from rfl, ih hpre']
      rfl

/-- **C3** counterexample: on `"foo (a) bar (b)"` the greedy pattern
`' \(.*\)'` matches from the first `" ("` to the last `")"`, so the code
returns `"foo"`, not the `"foo bar (b)"` a single non-greedy removal would
produce. -/
theorem paren_sub_greedy_cex :
    parenSub ("foo (a) bar (b)".toList) = "foo".toList ∧
    "foo".toList ≠ "foo bar (b)".toList := by
  decide

/-- **C3** amended: the substitution is greedy, not non-greedy: in a
newline-free label whose prefix contains no `" ("` and whose suffix after
the last `")"` contains no further `")"`, everything from the first `" ("`
through the last `")"` is removed — parenthesized groups between them,
nested or not, disappear wholesale. -/
theorem paren_sub_greedy (pre mid suf : List Char)
    (hpre : hasSpaceParen pre = false)
    (hpn : '\n' ∉ pre) (hmn : '\n' ∉ mid)
    (hsuf : ')' ∉ suf) (hsn : '\n' ∉ suf) :
    parenSub (pre ++ ' ' :: '(' :: (mid ++ ')' :: suf)) = pre ++ suf := by
  have hnos : '\n' ∉ pre ++ ' ' :: '(' :: (mid ++ ')' :: suf) := by
    intro hm
    rcases List.mem_append.mp hm with h | h
    · exact hpn h
    · rcases List.mem_cons.mp h with h | h
      · exact absurd h.symm (by decide)
      · rcases List.mem_cons.mp h with h | h
        · exact absurd h.symm (by decide)
        · rcases List.mem_append.mp h with h | h
          · exact hmn h
          · rcases List.mem_cons.mp h with h | h
            · exact absurd h.symm (by decide)
            · exact hsn h
  unfold parenSub
  rw [splitSep_no_sep hnos]
  show parenSubLine (pre ++ ' ' :: '(' :: (mid ++ ')' :: suf)) = pre ++ suf
  rw [parenSubLine_skip pre _ hpre]
  congr 1
  show parenSubLine (' ' :: '(' :: (mid ++ ')' :: suf)) = suf
  unfold parenSubLine
  rw [if_pos ⟨rfl, rfl, List.mem_append.mpr (Or.inr (List.mem_cons_self _ _))⟩]
  exact afterLastClose_append hsuf

/-- Concrete instance of `paren_sub_greedy`. -/
theorem paren_sub_greedy_witness :
    parenSub ("x (a) y (b)".toList) = "x".toList :=
  paren_sub_greedy ("x".toList) ("a) y (b".toList) []
    (by decide) (by decide) (by decide) (by decide) (by decide)

end Yake

namespace Yake

/-! ### C5 — persistence round trip -/

theorem dropWhile_head {p : Char → Bool} {l : List Char}
    (h : ∀ c, l.head? = some c → p c = false) : l.dropWhile p = l := by
  cases l with
  | nil => rfl
  | cons c rest =>
    rw [List.dropWhile_cons, h c rfl]
    simp

theorem pyStrip_eq_self {cs : List Char}
    (hh : ∀ c, cs.head? = some c → pyIsSpace c = false)
    (hl : ∀ c, cs.getLast? = some c → pyIsSpace c = false) :
    pyStrip cs = cs := by
  unfold pyStrip
  rw [dropWhile_head hh]
  rw [dropWhile_head (fun c hc => hl c (by rwa [List.head?_reverse] at hc))]
  exact List.reverse_reverse cs

theorem spaceJoin_chars : ∀ (us : List (List Char)) (c : Char),
    c ∈ spaceJoin us → c = ' ' ∨ ∃ u ∈ us, c ∈ u := by
  intro us
  induction us with
  | nil => intro c hc; simp [spaceJoin] at hc
  | cons u us' ih =>
    intro c hc
    cases us' with
    | nil =>
      right
      exact ⟨u, List.mem_singleton_self u, hc⟩
    | cons v rest =>
      rw [show spaceJoin (u :: v :: rest) = u ++ ' ' :: spaceJoin (v :: rest)
        from rfl] at hc
      rcases List.mem_append.mp hc with h | h
      · exact Or.inr ⟨u, List.mem_cons_self _ _, h⟩
      · rcases List.mem_cons.mp h with h | h
        · exact Or.inl h
        · rcases ih c h with h' | ⟨w, hw, hcw⟩
          · exact Or.inl h'
          · exact Or.inr ⟨w, List.mem_cons_of_mem _ hw, hcw⟩

theorem spaceJoin_getLast : ∀ (us : List (List Char)), us ≠ [] →
    (∀ u ∈ us, u ≠ [] ∧ ∀ c ∈ u, pyIsSpace c = false) →
    ∃ t, (spaceJoin us).getLast? = some t ∧ pyIsSpace t = false := by
  intro us
  induction us with
  | nil => intro h; exact absurd rfl h
  | cons u us' ih =>
    intro _ hgood
    obtain ⟨hune, huc⟩ := hgood u (List.mem_cons_self _ _)
    cases us' with
    | nil =>
      obtain ⟨c, u', rfl⟩ := List.exists_cons_of_ne_nil hune
      refine ⟨(u'.getLast?.getD c), ?_, ?_⟩
      · exact List.getLast?_cons
      · cases hu' : u'.getLast? with
        | none => exact huc c (by simp [hu', List.mem_cons_self])
        | some t =>
          simp only [hu', Option.getD_some]
          exact huc t (List.mem_cons_of_mem _ (List.mem_of_mem_getLast? hu'))
    | cons v rest =>
      obtain ⟨t, ht, htns⟩ := ih (by simp)
        (fun w hw => hgood w (List.mem_cons_of_mem _ hw))
      refine ⟨t, ?_, htns⟩
      rw [show spaceJoin (u :: v :: rest) = u ++ ' ' :: spaceJoin (v :: rest)
        from rfl, List.getLast?_append]
      rw [show (' ' :: spaceJoin (v :: rest)).getLast? =
        some ((spaceJoin (v :: rest)).getLast?.getD ' ') from List.getLast?_cons]
      rw [ht]
      rfl

end Yake

namespace Yake

theorem splitSep_append {sep : Char} : ∀ {a : List Char} (b : List Char),
    sep ∉ a → splitSep sep (a ++ sep :: b) = a :: splitSep sep b := by
  intro a
  induction a with
  | nil =>
    intro b _
    show splitSep sep (sep :: b) = [] :: splitSep sep b
    rw [splitSep, if_pos rfl]
  | cons c a' ih =>
    intro b h
    have hc : ¬ c = sep := fun hcc => h (hcc ▸ List.mem_cons_self _ _)
    show splitSep sep (c :: (a' ++ sep :: b)) = (c :: a') :: splitSep sep b
    rw [splitSep, if_neg hc, ih b (fun hm => h (List.mem_cons_of_mem _ hm))]

theorem pySplitWsAux_word : ∀ (w cur t : List Char),
    (∀ c ∈ w, pyIsSpace c = false) →
    pySplitWsAux cur (w ++ t) = pySplitWsAux (w.reverse ++ cur) t := by
  intro w
  induction w with
  | nil => intro cur t _; simp
  | cons c w' ih =>
    intro cur t h
    have hc := h c (List.mem_cons_self _ _)
    show pySplitWsAux cur (c :: (w' ++ t)) = pySplitWsAux ((c :: w').reverse ++ cur) t
    rw [pySplitWsAux, if_neg (by simp [hc])]
    rw [ih (c :: cur) t (fun c' hc' => h c' (List.mem_cons_of_mem _ hc'))]
    congr 1
    simp

theorem pySplitWsAux_single (u : List Char) (hune : u ≠ [])
    (huc : ∀ c ∈ u, pyIsSpace c = false) : pySplitWsAux [] u = [u] := by
  have h := pySplitWsAux_word u [] [] huc
  rw [List.append_nil, List.append_nil] at h
  rw [h, pySplitWsAux,
    if_neg (by simpa [List.isEmpty_iff, List.reverse_eq_nil_iff] using hune),
    List.reverse_reverse]

theorem pySplitWs_spaceJoin : ∀ (us : List (List Char)), us ≠ [] →
    (∀ u ∈ us, u ≠ [] ∧ ∀ c ∈ u, pyIsSpace c = false) →
    pySplitWs (spaceJoin us) = us := by
  intro us
  induction us with
  | nil => intro h; exact absurd rfl h
  | cons u us' ih =>
    intro _ hgood
    obtain ⟨hune, huc⟩ := hgood u (List.mem_cons_self _ _)
    cases us' with
    | nil => exact pySplitWsAux_single u hune huc
    | cons v rest =>
      show pySplitWsAux [] (spaceJoin (u :: v :: rest)) = u :: v :: rest
      rw [show spaceJoin (u :: v :: rest) = u ++ ' ' :: spaceJoin (v :: rest)
        from rfl]
      rw [pySplitWsAux_word u [] _ huc, List.append_nil]
      rw [pySplitWsAux, if_pos (show pyIsSpace ' ' = true from rfl),
        if_neg (by simpa [List.isEmpty_iff, List.reverse_eq_nil_iff] using hune),
        List.reverse_reverse]
      congr 1
      exact ih (by simp) (fun w hw => hgood w (List.mem_cons_of_mem _ hw))

end Yake

namespace Yake

theorem goodKey_unpack {k : List Char} (h : goodKey k = true) :
    k ≠ [] ∧ (∀ c ∈ k, c ≠ '\t' ∧ c ≠ '\n') ∧
    (∀ c, k.head? = some c → pyIsSpace c = false) ∧
    (∀ c, k.getLast? = some c → pyIsSpace c = false) := by
  simp only [goodKey, Bool.and_eq_true, List.all_eq_true] at h
  obtain ⟨⟨⟨h1, h2⟩, h3⟩, h4⟩ := h
  refine ⟨?_, ?_, ?_, ?_⟩
  · intro hnil
    rw [hnil] at h1
    simp at h1
  · intro c hc
    obtain ⟨ht, hn⟩ := h2 c hc
    exact ⟨by simpa using ht, by simpa using hn⟩
  · intro c hc
    rw [hc] at h3
    simpa using h3
  · intro c hc
    rw [hc] at h4
    simpa using h4

theorem goodUris_unpack {us : List (List Char)} (h : goodUris us = true) :
    us ≠ [] ∧ ∀ u ∈ us, u ≠ [] ∧ ∀ c ∈ u, pyIsSpace c = false := by
  simp only [goodUris, Bool.and_eq_true, List.all_eq_true] at h
  obtain ⟨h1, h2⟩ := h
  refine ⟨?_, ?_⟩
  · intro hnil
    rw [hnil] at h1
    simp at h1
  · intro u hu
    obtain ⟨hne, hc⟩ := h2 u hu
    refine ⟨?_, ?_⟩
    · intro hnil
      rw [hnil] at hne
      simp at hne
    · intro c hcu
      simpa using hc c hcu

theorem tab_not_mem_spaceJoin {us : List (List Char)}
    (h : ∀ u ∈ us, u ≠ [] ∧ ∀ c ∈ u, pyIsSpace c = false) :
    '\t' ∉ spaceJoin us := by
  intro hmem
  rcases spaceJoin_chars us '\t' hmem with h' | ⟨u, hu, hcu⟩
  · exact absurd h' (by decide)
  · have := (h u hu).2 '\t' hcu
    simp [pyIsSpace] at this

theorem parseLine_entryLine {e : List Char × List (List Char)}
    (h : goodEntry e = true) : parseLine (entryLine e) = some e := by
  obtain ⟨k, us⟩ := e
  simp only [goodEntry, Bool.and_eq_true] at h
  obtain ⟨hkne, hktn, hkh, hkl⟩ := goodKey_unpack h.1
  obtain ⟨husne, hus⟩ := goodUris_unpack h.2
  have hstrip : pyStrip (entryLine (k, us)) = entryLine (k, us) := by
    apply pyStrip_eq_self
    · intro c hc
      rw [show entryLine (k, us) = k ++ '\t' :: spaceJoin us from rfl,
        List.head?_append] at hc
      cases hk : k.head? with
      | none =>
        exact absurd hk (by
          cases k with
          | nil => exact absurd rfl hkne
          | cons a k' => simp)
      | some a =>
        rw [hk, Option.or_some] at hc
        exact hkh c (hk.trans hc)
    · intro c hc
      rw [show entryLine (k, us) = k ++ '\t' :: spaceJoin us from rfl,
        List.getLast?_append] at hc
      obtain ⟨t, ht, htns⟩ := spaceJoin_getLast us husne hus
      rw [show ('\t' :: spaceJoin us).getLast? =
        some ((spaceJoin us).getLast?.getD '\t') from List.getLast?_cons,
        ht] at hc
      simp only [Option.getD_some, Option.or_some, Option.some_inj] at hc
      rw [← hc]
      exact htns
  have hsplit : splitSep '\t' (entryLine (k, us)) = [k, spaceJoin us] := by
    rw [show entryLine (k, us) = k ++ '\t' :: spaceJoin us from rfl]
    rw [splitSep_append _ (fun hm => (hktn '\t' hm).1 rfl)]
    rw [splitSep_no_sep (tab_not_mem_spaceJoin hus)]
  unfold parseLine
  rw [hstrip, hsplit]
  show some (k, pySplitWs (spaceJoin us)) = some (k, us)
  rw [pySplitWs_spaceJoin us husne hus]

end Yake

namespace Yake

theorem lineSplitAux_append : ∀ (l : List Char), '\n' ∉ l →
    ∀ (cur rest : List Char),
    lineSplitAux cur (l ++ '\n' :: rest) =
      (cur.reverse ++ l) :: (if rest.isEmpty then [] else lineSplitAux [] rest) := by
  intro l
  induction l with
  | nil =>
    intro _ cur rest
    show lineSplitAux cur ('\n' :: rest) = _
    rw [lineSplitAux, if_pos rfl, List.append_nil]
  | cons c l' ih =>
    intro h cur rest
    have hc : ¬ c = '\n' := fun hcc => h (hcc ▸ List.mem_cons_self _ _)
    show lineSplitAux cur (c :: (l' ++ '\n' :: rest)) = _
    rw [lineSplitAux, if_neg hc,
      ih (fun hm => h (List.mem_cons_of_mem _ hm)) (c :: cur) rest]
    congr 1
    simp

theorem newline_not_mem_entryLine {e : List Char × List (List Char)}
    (h : goodEntry e = true) : '\n' ∉ entryLine e := by
  obtain ⟨k, us⟩ := e
  simp only [goodEntry, Bool.and_eq_true] at h
  obtain ⟨_, hktn, _, _⟩ := goodKey_unpack h.1
  obtain ⟨_, hus⟩ := goodUris_unpack h.2
  intro hmem
  rw [show entryLine (k, us) = k ++ '\t' :: spaceJoin us from rfl] at hmem
  rcases List.mem_append.mp hmem with h' | h'
  · exact (hktn '\n' h').2 rfl
  · rcases List.mem_cons.mp h' with h'' | h''
    · exact absurd h''.symm (by decide)
    · rcases spaceJoin_chars us '\n' h'' with h3 | ⟨u, hu, hcu⟩
      · exact absurd h3 (by decide)
      · have := (hus u hu).2 '\n' hcu
        simp [pyIsSpace] at this

theorem fileLines_save : ∀ (idx : List (List Char × List (List Char))),
    (∀ e ∈ idx, '\n' ∉ entryLine e) →
    fileLines (saveIndex idx) = idx.map entryLine := by
  intro idx
  induction idx with
  | nil => intro _; rfl
  | cons e idx' ih =>
    intro h
    have hsave : saveIndex (e :: idx') = entryLine e ++ '\n' :: saveIndex idx' := by
      show (entryLine e ++ ['\n']) ++ saveIndex idx' = _
      simp
    rw [hsave]
    unfold fileLines
    rw [if_neg (by simp)]
    rw [lineSplitAux_append (entryLine e) (h e (List.mem_cons_self _ _)) [] _]
    rw [List.reverse_nil, List.nil_append]
    cases idx' with
    | nil => rfl
    | cons e' rest =>
      have hne : saveIndex (e' :: rest) ≠ [] := by
        show (entryLine e' ++ ['\n']) ++ saveIndex rest ≠ []
        simp
      rw [if_neg (by simpa [List.isEmpty_iff] using hne)]
      have := ih (fun x hx => h x (List.mem_cons_of_mem _ hx))
      unfold fileLines at this
      rw [if_neg (by simpa [List.isEmpty_iff] using hne)] at this
      rw [this]
      rfl

theorem setAssoc_fresh : ∀ (acc : List (List Char × List (List Char)))
    (k : List Char) (v : List (List Char)), k ∉ acc.map Prod.fst →
    setAssoc acc k v = acc ++ [(k, v)] := by
  intro acc
  induction acc with
  | nil => intro k v _; rfl
  | cons hd rest ih =>
    obtain ⟨k', v'⟩ := hd
    intro k v h
    have hk : ¬ k' = k := by
      intro hkk
      exact h (by simp [hkk])
    show setAssoc ((k', v') :: rest) k v = _
    rw [setAssoc, if_neg hk, ih k v (fun hm => h (by simp [hm]))]
    rfl

theorem loadLoop_append : ∀ (idx acc : List (List Char × List (List Char))),
    (∀ e ∈ idx, parseLine (entryLine e) = some e) →
    (idx.map Prod.fst).Nodup →
    (∀ key ∈ idx.map Prod.fst, key ∉ acc.map Prod.fst) →
    loadLoop (idx.map entryLine) acc = some (acc ++ idx) := by
  intro idx
  induction idx with
  | nil => intro acc _ _ _; simp [loadLoop]
  | cons e idx' ih =>
    obtain ⟨k, v⟩ := e
    intro acc hparse hnodup hdisj
    have hp := hparse (k, v) (List.mem_cons_self _ _)
    show loadLoop (entryLine (k, v) :: idx'.map entryLine) acc = _
    rw [loadLoop, hp]
    show loadLoop (idx'.map entryLine) (setAssoc acc k v) = _
    rw [setAssoc_fresh acc k v (hdisj k (by simp))]
    have hnn : (k :: idx'.map Prod.fst).Nodup := by
      simpa only [List.map_cons] using hnodup
    have hknotin : k ∉ idx'.map Prod.fst := (List.nodup_cons.mp hnn).1
    have hnodup' : (idx'.map Prod.fst).Nodup := (List.nodup_cons.mp hnn).2
    rw [ih (acc ++ [(k, v)])
      (fun x hx => hparse x (List.mem_cons_of_mem _ hx)) hnodup'
      (by
        intro key hkey hcon
        rw [List.map_append, List.mem_append] at hcon
        rcases hcon with hcon | hcon
        · refine hdisj key ?_ hcon
          simp only [List.map_cons]
          exact List.mem_cons_of_mem _ hkey
        · have hkk : key = k := by simpa using hcon
          exact hknotin (hkk ▸ hkey))]
    rw [List.append_assoc]
    rfl

/-- **C5** counterexample: the key `" a"` contains neither a tab nor a
newline, yet `str.strip()` in `_load_index` removes its leading space, so
the reloaded mapping has key `"a"` instead of `" a"`. -/
theorem load_save_cex :
    loadIndex (saveIndex [((' ' :: "a".toList), ["u".toList])]) =
      some [("a".toList, ["u".toList])] ∧
    (' ' :: "a".toList) ≠ "a".toList := by
  decide

/-- **C5** amended: `load(save(index))` returns the index unchanged (hence
equal as a mapping from key to set of URIs) provided the keys are, beyond
tab- and newline-free, non-empty and not starting or ending with whitespace,
and every entry has a non-empty set of non-empty whitespace-free URIs —
all of which hold for indexes built by `_create_index` from whitespace-free
URIs.  Without the extra conditions the round trip can rename keys (see the
counterexample) or fail to parse. -/
theorem load_save_roundtrip (idx : List (List Char × List (List Char)))
    (hgood : ∀ e ∈ idx, goodEntry e = true)
    (hnodup : (idx.map Prod.fst).Nodup) :
    loadIndex (saveIndex idx) = some idx := by
  unfold loadIndex
  rw [fileLines_save idx (fun e he => newline_not_mem_entryLine (hgood e he))]
  have h := loadLoop_append idx []
    (fun e he => parseLine_entryLine (hgood e he)) hnodup (by simp)
  simpa using h

/-- Concrete instance of `load_save_roundtrip` on a two-entry index. -/
theorem load_save_roundtrip_witness :
    loadIndex (saveIndex [("a".toList, ["u".toList, "v".toList]),
      ("b c".toList, ["w".toList])]) =
      some [("a".toList, ["u".toList, "v".toList]), ("b c".toList, ["w".toList])] :=
  load_save_roundtrip
    [("a".toList, ["u".toList, "v".toList]), ("b c".toList, ["w".toList])]
    (by decide) (by decide)

end Yake
